import Mathlib

/-!
Verification development for the language-data visualization pipeline
(`map-visualization.js` and its companion script).  The definitions below are
shallow embeddings of the data-normalization and aggregation functions of the
source: state-name canonicalization, free-text numeric parsing, the
population-table join, per-language state coverage, percentage shares with an
"Other" bucket, nearest-rank quartiles, RMS error aggregation, and the
English-proficiency proportion map.  Machine floats of the source are modelled
by exact rationals (all values the claims mention are exactly representable),
JS `Map`s by insertion-ordered association lists, and nullable values by
`Option`.
-/

/-- JS whitespace as relevant here (the `\s` class restricted to the ASCII
whitespace that can occur in the CSV inputs). -/
def wsChar (c : Char) : Bool :=
  c = ' ' || c = '\t' || c = '\n' || c = '\r'

/-- Model of `String.prototype.trim`. -/
def trimChars (l : List Char) : List Char :=
  ((l.dropWhile wsChar).reverse.dropWhile wsChar).reverse

/-- Model of `s.replace(/\s+/g, " ")`: collapse each whitespace run to a single
space. -/
def collapseWs : List Char → List Char
  | [] => []
  | [c] => if wsChar c then [' '] else [c]
  | c :: d :: rest =>
    if wsChar c && wsChar d then collapseWs (d :: rest)
    else (if wsChar c then ' ' else c) :: collapseWs (d :: rest)

/-- Scan for the first `')'`; `.*?` in the source regex does not match line
terminators, so the scan aborts at a newline.  Returns the remainder after the
closing parenthesis. -/
def findClose : List Char → Option (List Char)
  | [] => none
  | c :: cs =>
    if c = ')' then some cs
    else if c = '\n' || c = '\r' then none
    else findClose cs

/-- Fuelled worker for `stripParens`; the fuel (initialized to the input
length) strictly bounds the recursion depth. -/
def stripParensF : Nat → List Char → List Char
  | 0, l => l
  | _ + 1, [] => []
  | fuel + 1, c :: cs =>
    if c = '(' then
      match findClose cs with
      | some rest => stripParensF fuel rest
      | none => c :: stripParensF fuel cs
    else c :: stripParensF fuel cs

/-- Model of `s.replace(/\(.*?\)/g, "")`: delete every non-greedy
parenthesized group. -/
def stripParens (l : List Char) : List Char :=
  stripParensF l.length l

/-- A JS word character (`\w`), for the `\b` boundaries around `state`. -/
def wordChar (c : Char) : Bool :=
  c.isAlphanum || c = '_'

/-- Does the list start with `state` (case-insensitive) followed by a word
boundary? -/
def stateAt (l : List Char) : Bool :=
  match l with
  | c1 :: c2 :: c3 :: c4 :: c5 :: rest =>
    c1.toLower = 's' && c2.toLower = 't' && c3.toLower = 'a' &&
    c4.toLower = 't' && c5.toLower = 'e' &&
    (match rest with
     | [] => true
     | r :: _ => !wordChar r)
  | _ => false

/-- Remainder after the matched `state`. -/
def dropStateWord (l : List Char) : List Char :=
  l.drop 5

/-- Worker for `stripState`: `prevWord` records whether the previous character
was a word character (no word boundary before the match then). -/
def stripStateGo : Bool → List Char → List Char
  | _, [] => []
  | prevWord, c :: cs =>
    if !prevWord && stateAt (c :: cs) then dropStateWord (c :: cs)
    else c :: stripStateGo (wordChar c) cs

/-- Model of `s.replace(/\bstate\b/i, "")`: remove the first standalone
occurrence of the word `state`, case-insensitively. -/
def stripState (l : List Char) : List Char :=
  stripStateGo false l

/-- Maximal non-whitespace runs of a character list (the tokens of
`clean.split(/\s+/)` on a trimmed input, empty artifacts dropped — they can
only arise from the empty string, where the final join is empty either way). -/
def runsStep (c : Char) (acc : List (List Char)) : List (List Char) :=
  if wsChar c then [] :: acc
  else
    match acc with
    | [] => [[c]]
    | t :: ts => (c :: t) :: ts

def wsRuns (l : List Char) : List (List Char) :=
  (l.foldr runsStep []).filter (fun t => !t.isEmpty)

/-- Model of `w.charAt(0).toUpperCase() + w.slice(1).toLowerCase()`. -/
def titleWord : List Char → List Char
  | [] => []
  | c :: cs => c.toUpper :: cs.map Char.toLower

/-- Join tokens with single spaces (`.join(' ')`). -/
def joinSp : List (List Char) → List Char
  | [] => []
  | [t] => t
  | t :: ts => t ++ ' ' :: joinSp ts

/-- ASCII lower-casing of a character list (`toLowerCase` on the inputs in
play). -/
def jsLower (l : List Char) : List Char :=
  l.map Char.toLower

/-- The 51-entry abbreviation table `abbrevToName`, in source (insertion)
order. -/
def abbrevToName : List (String × String) :=
  [("AL", "Alabama"), ("AK", "Alaska"), ("AZ", "Arizona"), ("AR", "Arkansas"),
   ("CA", "California"), ("CO", "Colorado"), ("CT", "Connecticut"),
   ("DE", "Delaware"), ("FL", "Florida"), ("GA", "Georgia"), ("HI", "Hawaii"),
   ("ID", "Idaho"), ("IL", "Illinois"), ("IN", "Indiana"), ("IA", "Iowa"),
   ("KS", "Kansas"), ("KY", "Kentucky"), ("LA", "Louisiana"), ("ME", "Maine"),
   ("MD", "Maryland"), ("MA", "Massachusetts"), ("MI", "Michigan"),
   ("MN", "Minnesota"), ("MS", "Mississippi"), ("MO", "Missouri"),
   ("MT", "Montana"), ("NE", "Nebraska"), ("NV", "Nevada"),
   ("NH", "New Hampshire"), ("NJ", "New Jersey"), ("NM", "New Mexico"),
   ("NY", "New York"), ("NC", "North Carolina"), ("ND", "North Dakota"),
   ("OH", "Ohio"), ("OK", "Oklahoma"), ("OR", "Oregon"),
   ("PA", "Pennsylvania"), ("RI", "Rhode Island"), ("SC", "South Carolina"),
   ("SD", "South Dakota"), ("TN", "Tennessee"), ("TX", "Texas"),
   ("UT", "Utah"), ("VT", "Vermont"), ("VA", "Virginia"),
   ("WA", "Washington"), ("WV", "West Virginia"), ("WI", "Wisconsin"),
   ("WY", "Wyoming"), ("DC", "District of Columbia")]

/-- Insertion-ordered association-list lookup (JS `Map.prototype.get` /
property access on `abbrevToName`). -/
def aget {κ β : Type} [DecidableEq κ] : List (κ × β) → κ → Option β
  | [], _ => none
  | (k', v) :: m, k => if k' = k then some v else aget m k

/-- Insertion-ordered association-list update (JS `Map.prototype.set`): an
existing key keeps its position, a new key is appended. -/
def aset {κ β : Type} [DecidableEq κ] : List (κ × β) → κ → β → List (κ × β)
  | [], k, v => [(k, v)]
  | (k', v') :: m, k, v =>
    if k' = k then (k', v) :: m else (k', v') :: aset m k v

/-- The normalization prefix of `canonicalStateName`:
`String(raw).trim()` then `.replace(/[.]/g,"").replace(/\s+/g," ").trim()`. -/
def normState (str : String) : List Char :=
  trimChars (collapseWs ((trimChars str.data).filter (fun c => c ≠ '.')))

/-- The `clean` intermediate of the source: parentheticals and the standalone
word `state` removed, then trimmed. -/
def cleanState (str : String) : List Char :=
  trimChars (stripState (stripParens (normState str)))

/-- Case-insensitive scan of the 51 known full names, first hit wins
(the `for (const name of Object.values(abbrevToName))` loop). -/
def findName (clean : List Char) : Option String :=
  (abbrevToName.map (fun p => p.2)).find?
    (fun name => decide (jsLower name.data = jsLower clean))

/-- The part of `canonicalStateName` after the two-letter-code branch: known
full-name match, else title-cased fallback. -/
def canonicalTail (s1 : List Char) : String :=
  let clean := trimChars (stripState (stripParens s1))
  match findName clean with
  | some name => name
  | none => String.mk (joinSp ((wsRuns clean).map titleWord))

/-- Shallow embedding of `canonicalStateName` (`undefined`/`null` modelled as
`none`). -/
def canonicalStateName (raw : Option String) : String :=
  match raw with
  | none => "Unknown"
  | some str =>
    if (trimChars str.data).isEmpty then "Unknown"
    else
      let s1 := normState str
      if s1.length = 2 then
        match aget abbrevToName (String.mk (s1.map Char.toUpper)) with
        | some full => full
        | none => canonicalTail s1
      else canonicalTail s1

/-- Null, empty, or whitespace-only input (the inputs the source maps to
`"Unknown"` up front). -/
def jsBlank (raw : Option String) : Bool :=
  match raw with
  | none => true
  | some str => (trimChars str.data).isEmpty

/-- The cleaned form of an input, for stating when the title-case fallback
degenerates to the empty string. -/
def cleanedState (raw : Option String) : List Char :=
  match raw with
  | none => []
  | some str => cleanState str

/-- Fuelled scanner for the candidate-number regex
`[0-9]+(?:\.[0-9]+)?` applied globally: maximal digit runs with an optional
single decimal part. -/
def numTokensF : Nat → List Char → List (List Char)
  | 0, _ => []
  | _ + 1, [] => []
  | fuel + 1, c :: cs =>
    if c.isDigit then
      let ds := (c :: cs).takeWhile Char.isDigit
      let rest := (c :: cs).dropWhile Char.isDigit
      match rest with
      | '.' :: d :: rest' =>
        if d.isDigit then
          let fs := (d :: rest').takeWhile Char.isDigit
          let after := (d :: rest').dropWhile Char.isDigit
          (ds ++ '.' :: fs) :: numTokensF fuel after
        else ds :: numTokensF fuel rest
      | _ => ds :: numTokensF fuel rest
    else numTokensF fuel cs

def numTokens (l : List Char) : List (List Char) :=
  numTokensF l.length l

/-- Numeric value of a digit run. -/
def natOfDigits (l : List Char) : Nat :=
  l.foldl (fun n c => 10 * n + (c.toNat - 48)) 0

/-- Exact value of one matched candidate (`parseFloat` on a token of the
above shape; the token values are exactly representable, so `ℚ` is faithful
for everything the claims mention). -/
def tokenVal (t : List Char) : ℚ :=
  let ip := t.takeWhile Char.isDigit
  let rest := t.dropWhile Char.isDigit
  match rest with
  | '.' :: fs => (natOfDigits ip : ℚ) + (natOfDigits fs : ℚ) / 10 ^ fs.length
  | _ => (natOfDigits ip : ℚ)

/-- The cleaned string of `parseSpeakers`: parentheticals removed, commas
removed, trimmed. -/
def cleanedNum (str : String) : List Char :=
  trimChars ((stripParens (trimChars str.data)).filter (fun c => c ≠ ','))

/-- The candidate list `nums` of `parseSpeakers`. -/
def numCandidates (str : String) : List (List Char) :=
  numTokens (cleanedNum str)

/-- Shallow embedding of `parseSpeakers` (the free-text numeric-field
parser). -/
def parseSpeakers (raw : Option String) : Option ℚ :=
  match raw with
  | none => none
  | some str =>
    if (trimChars str.data).isEmpty then none
    else
      let s := cleanedNum str
      match (numTokens s).map tokenVal with
      | [] => none
      | p :: ps =>
        if s.contains '-' && decide (2 ≤ (p :: ps).length) then
          some ((p + (p :: ps).getLastD 0) / 2)
        else if s.contains '<' then some p
        else some p

/-- One post-ingestion language record: the `State` and `Language` columns as
loaded, `Speakers` already replaced by its parsed value
(`d.Speakers = parseSpeakers(d.Speakers)`), and the raw
`Speak English less than "Very Well"` text (parsed only at its use sites). -/
structure LangRecord where
  state : Option String
  language : Option String
  speakers : Option ℚ
  english : Option String
deriving DecidableEq

/-- First-occurrence deduplication with a seen-accumulator (JS `Set` iteration
order). -/
def dedupAux {α : Type} [DecidableEq α] (seen : List α) : List α → List α
  | [] => []
  | x :: xs =>
    if x ∈ seen then dedupAux seen xs else x :: dedupAux (x :: seen) xs

def dedupFirst {α : Type} [DecidableEq α] (l : List α) : List α :=
  dedupAux [] l

/-- `languageByState`: group records by canonical state name, insertion order
preserved (`if (!has) set(key, []); get(key).push(d)`). -/
def languageByState (records : List LangRecord) :
    List (String × List LangRecord) :=
  records.foldl
    (fun m d =>
      let k := canonicalStateName d.state
      aset m k ((aget m k).getD [] ++ [d]))
    []

/-- One `statesCount` increment (`statesCount.set(l, (get(l) || 0) + 1)`). -/
def bump (m : List (Option String × Nat)) (l : Option String) :
    List (Option String × Nat) :=
  aset m l ((aget m l).getD 0 + 1)

/-- `statesCount` of the dot chart: for each state group, the set of its
languages, each bumped once per state. -/
def statesCount (records : List LangRecord) : List (Option String × Nat) :=
  (languageByState records).foldl
    (fun cnt g =>
      (dedupFirst (g.2.map (fun d => d.language))).foldl bump cnt)
    []

/-- Spec-words definition, for comparison with `statesCount`
(`languageCoverage`): the number of distinct canonical states in which at
least one record for the language has a parsed speaker count strictly greater
than 0. -/
def languageCoverageSpec (records : List LangRecord) (l : Option String) :
    Nat :=
  (dedupFirst
    ((records.filter
        (fun r => r.language = l ∧ 0 < r.speakers.getD 0)).map
      (fun r => canonicalStateName r.state))).length

/-- A population-CSV row: header name to cell text (absent column =
missing key). -/
structure PopRow where
  fields : List (String × String)
deriving DecidableEq

/-- The `r.A || r.B || ...` alias chain: first present, non-empty cell (a
trailing falsy value and `undefined` both end in the row being skipped, so
they are identified here). -/
def resolveAlias (r : PopRow) : List String → Option String
  | [] => none
  | k :: ks =>
    match aget r.fields k with
    | some s => if s ≠ "" then some s else resolveAlias r ks
    | none => resolveAlias r ks

def nameAliases : List String :=
  ["Area", "State", "NAME", "Name", "Geography", "GeographyName"]

def popAliases : List String :=
  ["2010", "2010 Population", "Pop2010", "POP_2010",
   "2010 Population Estimate", "2010_est"]

/-- Magnitude part of JS `Number(...)` on the decimal strings in play:
`d+`, `d+.d*`, or `.d+`; anything else is NaN (`none`).  (The exotic
`ToNumber` forms — exponents, hex, `Infinity` — do not occur in population
cells and are not modelled.) -/
def numMag (l : List Char) : Option ℚ :=
  let ds := l.takeWhile Char.isDigit
  let rest := l.dropWhile Char.isDigit
  if ds.isEmpty then
    match rest with
    | '.' :: fs =>
      if !fs.isEmpty && fs.all Char.isDigit then
        some ((natOfDigits fs : ℚ) / 10 ^ fs.length)
      else none
    | _ => none
  else
    match rest with
    | [] => some (natOfDigits ds : ℚ)
    | '.' :: fs =>
      if fs.all Char.isDigit then
        some ((natOfDigits ds : ℚ) + (natOfDigits fs : ℚ) / 10 ^ fs.length)
      else none
    | _ => none

/-- Signed JS numeric conversion of a (already trimmed, comma-free) cell. -/
def strToNum (l : List Char) : Option ℚ :=
  match l with
  | '-' :: rest => (numMag rest).map (fun q => -q)
  | '+' :: rest => numMag rest
  | _ => numMag l

/-- `String(rawPop).replace(/,/g, '').trim()` then `s === '' ? null : +s`. -/
def parsePop (raw : String) : Option ℚ :=
  let t := trimChars (raw.data.filter (fun c => c ≠ ','))
  if t.isEmpty then none else strToNum t

/-- The contribution of one population row: canonical name and parsed value,
or nothing when the row is skipped (`if (!rawName) return`, null parse, NaN). -/
def popEntry (r : PopRow) : Option (String × ℚ) :=
  match resolveAlias r nameAliases with
  | none => none
  | some rawName =>
    match resolveAlias r popAliases with
    | none => none
    | some rawPop =>
      (parsePop rawPop).map (fun p => (canonicalStateName (some rawName), p))

/-- `populationByState`: later rows for the same canonical name overwrite
earlier ones (`Map.set`). -/
def populationByState (rows : List PopRow) : List (String × ℚ) :=
  rows.foldl
    (fun m r =>
      match popEntry r with
      | some (k, v) => aset m k v
      | none => m)
    []

/-- One pie entry after the `pct` assignment. -/
structure ShareItem where
  lang : String
  val : ℚ
  pct : ℚ
deriving DecidableEq

/-- `items` of `renderPieInto` in the no-exclusion branch: positive values
only, `pct = popForPct ? val / popForPct : 0`. -/
def pieItems (totals : List (String × ℚ)) (pop : ℚ) : List ShareItem :=
  (totals.filter (fun p => 0 < p.2)).map
    (fun p => ⟨p.1, p.2, if pop = 0 then 0 else p.2 / pop⟩)

def insertDesc (x : ShareItem) : List ShareItem → List ShareItem
  | [] => [x]
  | y :: ys => if y.pct ≤ x.pct then x :: y :: ys else y :: insertDesc x ys

/-- `.sort((a,b) => b.pct - a.pct)`: descending by share. -/
def sortByPctDesc (l : List ShareItem) : List ShareItem :=
  l.foldr insertDesc []

/-- The `major` entries (share at least 1%), sorted descending. -/
def pieMajor (totals : List (String × ℚ)) (pop : ℚ) : List ShareItem :=
  sortByPctDesc ((pieItems totals pop).filter (fun d => 1 / 100 ≤ d.pct))

/-- The `minor` entries (share below 1%). -/
def pieMinor (totals : List (String × ℚ)) (pop : ℚ) : List ShareItem :=
  (pieItems totals pop).filter (fun d => ¬(1 / 100 ≤ d.pct))

def pieOtherVal (totals : List (String × ℚ)) (pop : ℚ) : ℚ :=
  ((pieMinor totals pop).map (fun d => d.val)).sum

/-- `otherVal / (popForPct || 1)` in the no-exclusion branch. -/
def pieOtherPct (totals : List (String × ℚ)) (pop : ℚ) : ℚ :=
  pieOtherVal totals pop / (if pop = 0 then 1 else pop)

/-- The synthetic `Other (<1%)` entry, present only when it has positive
value. -/
def pieOther (totals : List (String × ℚ)) (pop : ℚ) : List ShareItem :=
  if 0 < pieOtherVal totals pop then
    [⟨"Other (<1%)", pieOtherVal totals pop, pieOtherPct totals pop⟩]
  else []

/-- The final entry list handed to the pie generator: majors sorted
descending, then the `Other` bucket. -/
def sharesWithOtherBucket (totals : List (String × ℚ)) (pop : ℚ) :
    List ShareItem :=
  pieMajor totals pop ++ pieOther totals pop

/-- Sum of the included (positive) values, the denominator the claim talks
about. -/
def includedSum (totals : List (String × ℚ)) : ℚ :=
  ((totals.filter (fun p => 0 < p.2)).map (fun p => p.2)).sum

def insertAsc (x : ℚ) : List ℚ → List ℚ
  | [] => [x]
  | y :: ys => if x ≤ y then x :: y :: ys else y :: insertAsc x ys

/-- `.sort((a, b) => a - b)` on numbers: ascending. -/
def sortAsc (l : List ℚ) : List ℚ :=
  l.foldr insertAsc []

structure QuartileStats where
  min : ℚ
  q1 : ℚ
  median : ℚ
  q3 : ℚ
  max : ℚ
  iqr : ℚ
deriving DecidableEq

/-- `calculateQuartiles`: nearest-rank indices `floor(n×0.25)`,
`floor(n×0.5)`, `floor(n×0.75)` into the ascending-sorted copy of the input
(the float products are exact, so the indices are the integer quotients
`n/4`, `n/2`, `3n/4`).  The source reads `sorted[i]` of an empty array as
`undefined`; that caller-guarded case is `none` here. -/
def calculateQuartiles (data : List ℚ) : Option QuartileStats :=
  let sorted := sortAsc data
  if sorted.isEmpty then none
  else
    let len := sorted.length
    let q1 := sorted.getD (len / 4) 0
    let median := sorted.getD (len / 2) 0
    let q3 := sorted.getD (3 * len / 4) 0
    some ⟨sorted.getD 0 0, q1, median, q3, sorted.getD (len - 1) 0, q3 - q1⟩

/-- `sumSquares` of the RMS computation:
`errors.reduce((s, e) => s + e * e, 0)`. -/
def sumSquares (errors : List ℚ) : ℚ :=
  errors.foldl (fun s e => s + e * e) 0

/-- `englishErrorRMSByState` maps each state's error list through
`Math.sqrt(sumSquares)`; the square root lives in the theorems (ℝ), this is
the computable radicand map. -/
def englishErrorSumSquaresByState (m : List (String × List ℚ)) :
    List (String × ℚ) :=
  m.map (fun g => (g.1, sumSquares g.2))

/-- `englishLessThanVeryWellByState`: per canonical state, the summed parsed
`Speak English less than "Very Well"` counts (records whose field parses to
null are skipped). -/
def englishCounts (records : List LangRecord) : List (String × ℚ) :=
  records.foldl
    (fun m d =>
      match parseSpeakers d.english with
      | some c =>
        let k := canonicalStateName d.state
        aset m k ((aget m k).getD 0 + c)
      | none => m)
    []

/-- The denominator actually used by the source:
`populationByState.get(state) || 1`. -/
def epDenom (popMap : List (String × ℚ)) (st : String) : ℚ :=
  match aget popMap st with
  | some p => if p = 0 then 1 else p
  | none => 1

/-- `englishProficiencyProportions`:
`proportion = (count / pop) * 100` per state of the counts map. -/
def englishProficiencyProportions (records : List LangRecord)
    (popMap : List (String × ℚ)) : List (String × ℚ) :=
  (englishCounts records).foldl
    (fun m g => aset m g.1 ((g.2 / epDenom popMap g.1) * 100))
    []

/-- Spec-words definition, for comparison: the proportion the claim
describes, `100 × count / population-when-known` with 1 only for an unknown
population. -/
def claimedProportionSpec (count : ℚ) (popLookup : Option ℚ) : ℚ :=
  100 * count / popLookup.getD 1

section AListLemmas

variable {κ β : Type} [DecidableEq κ]

theorem aget_aset (m : List (κ × β)) (k k' : κ) (v : β) :
    aget (aset m k v) k' = if k' = k then some v else aget m k' := by
  induction m with
  | nil =>
    by_cases h : k' = k
    · subst h; simp [aset, aget]
    · have h2 : ¬(k = k') := fun hh => h hh.symm
      simp [aset, aget, h, h2]
  | cons hd tl ih =>
    obtain ⟨k₀, v₀⟩ := hd
    by_cases h₀ : k₀ = k
    · subst h₀
      by_cases h' : k₀ = k'
      · subst h'; simp [aset, aget]
      · have h2 : ¬(k' = k₀) := fun hh => h' hh.symm
        simp [aset, aget, h', h2]
    · by_cases h' : k₀ = k'
      · subst h'
        have h2 : ¬(k₀ = k) := h₀
        have h3 : ¬(k₀ = k) := h₀
        simp [aset, aget, h₀, fun hh : k₀ = k => h₀ hh]
      · simp [aset, aget, h₀, h', ih]

theorem aget_eq_none_of_not_mem_keys {m : List (κ × β)} {k : κ}
    (h : k ∉ m.map Prod.fst) : aget m k = none := by
  induction m with
  | nil => rfl
  | cons hd tl ih =>
    obtain ⟨k₀, v₀⟩ := hd
    simp only [List.map_cons, List.mem_cons] at h
    push_neg at h
    have h1 : ¬(k₀ = k) := fun hh => h.1 hh.symm
    simpa [aget, h1] using ih h.2

theorem aget_prop {m : List (κ × β)} {k : κ} {v : β} (P : β → Prop)
    (hall : ∀ p ∈ m, P p.2) (h : aget m k = some v) : P v := by
  induction m with
  | nil => simp [aget] at h
  | cons hd tl ih =>
    obtain ⟨k₀, v₀⟩ := hd
    simp only [aget] at h
    split at h
    · cases h; exact hall (k₀, v) (by simp)
    · exact ih (fun p hp => hall p (by simp [hp])) h

theorem keys_aset (m : List (κ × β)) (k : κ) (v : β) :
    (aset m k v).map Prod.fst =
      if k ∈ m.map Prod.fst then m.map Prod.fst
      else m.map Prod.fst ++ [k] := by
  induction m with
  | nil => simp [aset]
  | cons hd tl ih =>
    obtain ⟨k₀, v₀⟩ := hd
    by_cases h₀ : k₀ = k
    · subst h₀; simp [aset]
    · have h1 : ¬(k = k₀) := fun hh => h₀ hh.symm
      simp only [aset, if_neg h₀, List.map_cons, ih]
      by_cases hk : k ∈ tl.map Prod.fst <;> simp [hk, h1]

theorem aset_of_not_mem_keys {m : List (κ × β)} {k : κ} (v : β)
    (h : k ∉ m.map Prod.fst) : aset m k v = m ++ [(k, v)] := by
  induction m with
  | nil => rfl
  | cons hd tl ih =>
    obtain ⟨k₀, v₀⟩ := hd
    simp only [List.map_cons, List.mem_cons] at h
    push_neg at h
    have h1 : ¬(k₀ = k) := fun hh => h.1 hh.symm
    simp [aset, h1, ih h.2]

end AListLemmas

theorem populationByState_get (rows : List PopRow) (k : String) :
    aget (populationByState rows) k =
      (((rows.filterMap popEntry).filter (fun e => e.1 = k)).getLast?).map
        Prod.snd := by
  induction rows using List.reverseRecOn with
  | nil => rfl
  | append_singleton rs r ih =>
    have hfold : populationByState (rs ++ [r]) =
        (match popEntry r with
         | some e => aset (populationByState rs) e.1 e.2
         | none => populationByState rs) := by
      unfold populationByState
      rw [List.foldl_append]
      simp only [List.foldl_cons, List.foldl_nil]
      cases hpe : popEntry r with
      | none => simp
      | some e => obtain ⟨k₂, v₂⟩ := e; simp
    rw [hfold]
    cases he : popEntry r with
    | none =>
      have h2 : List.filterMap popEntry [r] = [] := by
        simp [List.filterMap_cons, he]
      simp only [he, List.filterMap_append, h2, List.append_nil]
      exact ih
    | some e =>
      obtain ⟨k₁, v⟩ := e
      have h2 : List.filterMap popEntry [r] = [(k₁, v)] := by
        simp [List.filterMap_cons, he]
      simp only [he, List.filterMap_append, h2, List.filter_append]
      by_cases hk : k₁ = k
      · subst hk
        have h3 : List.filter (fun e => decide (e.1 = k₁)) [(k₁, v)] =
            [(k₁, v)] := by simp
        rw [h3, List.getLast?_concat, aget_aset]
        simp
      · have hk2 : ¬(k = k₁) := fun hh => hk hh.symm
        have h3 : List.filter (fun e => decide (e.1 = k)) [(k₁, v)] = [] := by
          simp [hk]
        rw [h3, List.append_nil, aget_aset, if_neg hk2]
        exact ih

section CanonicalLemmas

theorem dropWhile_head_false {p : Char → Bool} (l : List Char) :
    ∀ {x : Char} {xs : List Char}, l.dropWhile p = x :: xs → p x = false := by
  induction l with
  | nil => intro x xs h; simp [List.dropWhile] at h
  | cons c cs ih =>
    intro x xs h
    by_cases hc : p c
    · rw [List.dropWhile_cons_of_pos hc] at h
      exact ih h
    · rw [List.dropWhile_cons_of_neg hc] at h
      cases h
      simpa using hc

theorem trimChars_exists_nonws {l : List Char} (h : trimChars l ≠ []) :
    ∃ c ∈ trimChars l, wsChar c = false := by
  unfold trimChars at *
  rcases he : ((l.dropWhile wsChar).reverse.dropWhile wsChar) with _ | ⟨x, xs⟩
  · rw [he] at h; simp at h
  · refine ⟨x, ?_, dropWhile_head_false _ he⟩
    simp

theorem wsRuns_ne_nil {l : List Char} (h : ∃ c ∈ l, wsChar c = false) :
    wsRuns l ≠ [] := by
  induction l with
  | nil => simp at h
  | cons c cs ih =>
    unfold wsRuns at *
    simp only [List.foldr_cons]
    by_cases hc : wsChar c
    · have h' : ∃ c ∈ cs, wsChar c = false := by
        obtain ⟨d, hd, hdw⟩ := h
        rcases List.mem_cons.mp hd with h1 | h1
        · subst h1; rw [hc] at hdw; cases hdw
        · exact ⟨d, h1, hdw⟩
      simpa [runsStep, hc] using ih h'
    · rcases ha : cs.foldr runsStep [] with _ | ⟨t, ts⟩ <;>
        simp [runsStep, hc, ha]

theorem mem_wsRuns_ne_nil {l : List Char} {t : List Char}
    (h : t ∈ wsRuns l) : t ≠ [] := by
  unfold wsRuns at h
  have := List.of_mem_filter h
  simpa using this

theorem titleWord_ne_nil {t : List Char} (h : t ≠ []) : titleWord t ≠ [] := by
  cases t with
  | nil => exact absurd rfl h
  | cons c cs => simp [titleWord]

theorem joinSp_ne_nil {t : List Char} {ts : List (List Char)} (h : t ≠ []) :
    joinSp (t :: ts) ≠ [] := by
  cases ts with
  | nil => simpa [joinSp] using h
  | cons u us =>
    unfold joinSp
    simp only [ne_eq, List.append_eq_nil]
    intro hc
    rcases t with _ | _
    · exact h rfl
    · simp at hc

theorem stringMk_ne_empty {l : List Char} (h : l ≠ []) : String.mk l ≠ "" := by
  intro hc
  have := congrArg String.data hc
  simp at this
  exact h this

theorem title_ne_empty {clean : List Char}
    (hex : ∃ c ∈ clean, wsChar c = false) :
    String.mk (joinSp ((wsRuns clean).map titleWord)) ≠ "" := by
  rcases hr : wsRuns clean with _ | ⟨t, ts⟩
  · exact absurd hr (wsRuns_ne_nil hex)
  · have ht : t ≠ [] := mem_wsRuns_ne_nil (by rw [hr]; simp)
    rw [List.map_cons]
    exact stringMk_ne_empty (joinSp_ne_nil (titleWord_ne_nil ht))

theorem findName_ne_empty {clean : List Char} {name : String}
    (h : findName clean = some name) : name ≠ "" := by
  have hmem := List.mem_of_find?_eq_some h
  have : ∀ n ∈ abbrevToName.map (fun p => p.2), n ≠ "" := by decide
  exact this name hmem

theorem table_ne_empty {k full : String}
    (h : aget abbrevToName k = some full) : full ≠ "" := by
  exact aget_prop (fun v => v ≠ "") (by decide) h

theorem canonicalTail_ne_or (s1 : List Char) :
    canonicalTail s1 ≠ "" ∨ trimChars (stripState (stripParens s1)) = [] := by
  unfold canonicalTail
  cases hf : findName (trimChars (stripState (stripParens s1))) with
  | some name => exact Or.inl (by simp only [hf]; exact findName_ne_empty hf)
  | none =>
    by_cases hc : trimChars (stripState (stripParens s1)) = []
    · exact Or.inr hc
    · refine Or.inl ?_
      simp only [hf]
      exact title_ne_empty (trimChars_exists_nonws hc)

end CanonicalLemmas

/-- C3, counterexample: a population row whose cell parses to a negative
number is stored in `populationByState` — the claimed non-negativity guard
does not exist in the code. -/
theorem populationByState_stores_negative :
    aget (populationByState [⟨[("Area", "California"), ("2010", "-5")]⟩])
        "California" = some (-5) ∧ (-5 : ℚ) < 0 := by
  constructor
  · decide
  · norm_num

/-- C1, counterexample: the canonicalizer can return the empty string — input
`"."` survives the blank check, but stripping periods empties it and the
title-case fallback of the empty clean string is `""`, not a non-empty name. -/
theorem canonicalStateName_dot_empty :
    canonicalStateName (some ".") = "" ∧ jsBlank (some ".") = false := by
  constructor <;> decide

/-- C1 (amended): `canonicalStateName` is a total function on nullable
strings; null/empty/whitespace-only input yields `"Unknown"`, and the result
is non-empty except when the cleaned form (periods stripped, parentheticals
and the standalone word `state` removed, trimmed) is empty, in which case the
empty string is returned. -/
theorem canonicalStateName_amended (raw : Option String) :
    (jsBlank raw = true → canonicalStateName raw = "Unknown") ∧
    (canonicalStateName raw ≠ "" ∨ cleanedState raw = []) := by
  constructor
  · intro h
    cases raw with
    | none => rfl
    | some str =>
      have h' : (trimChars str.data).isEmpty = true := by
        simpa [jsBlank] using h
      simp [canonicalStateName, h']
  · cases raw with
    | none => exact Or.inl (by decide)
    | some str =>
      by_cases hb : (trimChars str.data).isEmpty
      · exact Or.inl (by simp [canonicalStateName, hb])
      · have hmain : canonicalStateName (some str) ≠ "" ∨
            cleanState str = [] := by
          simp only [canonicalStateName]
          rw [if_neg hb]
          by_cases hlen : (normState str).length = 2
          · rw [if_pos hlen]
            cases hg : aget abbrevToName
                (String.mk ((normState str).map Char.toUpper)) with
            | some full => exact Or.inl (table_ne_empty hg)
            | none => exact canonicalTail_ne_or (normState str)
          · rw [if_neg hlen]
            exact canonicalTail_ne_or (normState str)
        simpa [cleanedState, cleanState] using hmain

/-- C1, witness: the amended theorem applied at a whitespace-only input and
its blank hypothesis discharged. -/
theorem canonicalStateName_amended_witness :
    jsBlank (some " ") = true ∧ canonicalStateName (some " ") = "Unknown" :=
  ⟨by decide, (canonicalStateName_amended (some " ")).1 (by decide)⟩

section ParserLemmas

theorem findClose_sublist :
    ∀ {l r : List Char}, findClose l = some r → r.Sublist l := by
  intro l
  induction l with
  | nil => intro r h; simp [findClose] at h
  | cons c cs ih =>
    intro r h
    unfold findClose at h
    by_cases hc : c = ')'
    · rw [if_pos hc] at h
      cases h
      exact (List.Sublist.refl _).cons _
    · rw [if_neg hc] at h
      by_cases hn : (c = '\n' || c = '\r') = true
      · rw [if_pos hn] at h; cases h
      · rw [if_neg hn] at h
        exact (ih h).cons c

theorem mem_stripParensF :
    ∀ (fuel : Nat) (l : List Char) (c : Char),
      c ∈ stripParensF fuel l → c ∈ l := by
  intro fuel
  induction fuel with
  | zero => intro l c h; simp [stripParensF] at h; exact h
  | succ fuel ih =>
    intro l c h
    cases l with
    | nil => simp [stripParensF] at h
    | cons c₀ cs =>
      unfold stripParensF at h
      by_cases hc : c₀ = '('
      · rw [if_pos hc] at h
        cases hf : findClose cs with
        | some rest =>
          rw [hf] at h
          exact List.mem_cons_of_mem c₀ ((findClose_sublist hf).mem (ih rest c h))
        | none =>
          rw [hf] at h
          rcases List.mem_cons.mp h with h1 | h1
          · exact h1 ▸ List.mem_cons_self c₀ cs
          · exact List.mem_cons_of_mem c₀ (ih cs c h1)
      · rw [if_neg hc] at h
        rcases List.mem_cons.mp h with h1 | h1
        · exact h1 ▸ List.mem_cons_self c₀ cs
        · exact List.mem_cons_of_mem c₀ (ih cs c h1)

theorem mem_trimChars {l : List Char} {c : Char} (h : c ∈ trimChars l) :
    c ∈ l := by
  unfold trimChars at h
  rw [List.mem_reverse] at h
  have h1 := (List.dropWhile_sublist wsChar).mem h
  rw [List.mem_reverse] at h1
  exact (List.dropWhile_sublist wsChar).mem h1

theorem mem_cleanedNum {str : String} {c : Char} (h : c ∈ cleanedNum str) :
    c ∈ str.data := by
  unfold cleanedNum at h
  have h1 := mem_trimChars h
  have h2 := (List.mem_filter.mp h1).1
  exact mem_trimChars (mem_stripParensF _ _ _ h2)

theorem numTokensF_nil_of_nodigit :
    ∀ (fuel : Nat) (l : List Char), (∀ c ∈ l, c.isDigit = false) →
      numTokensF fuel l = [] := by
  intro fuel
  induction fuel with
  | zero => intro l _; rfl
  | succ fuel ih =>
    intro l h
    cases l with
    | nil => rfl
    | cons c cs =>
      have hc : c.isDigit = false := h c (List.mem_cons_self c cs)
      unfold numTokensF
      rw [hc]
      simp only [Bool.false_eq_true, if_false]
      exact ih cs (fun d hd => h d (List.mem_cons_of_mem c hd))

theorem cleanedNum_of_blank {str : String}
    (h : (trimChars str.data).isEmpty = true) : cleanedNum str = [] := by
  unfold cleanedNum
  rw [List.isEmpty_iff] at h
  rw [h]
  rfl

theorem tokenVal_nonneg (t : List Char) : 0 ≤ tokenVal t := by
  unfold tokenVal
  dsimp only
  split
  · positivity
  · positivity

theorem getLastD_mem : ∀ (l : List ℚ) (d : ℚ), l ≠ [] → l.getLastD d ∈ l := by
  intro l
  induction l with
  | nil => intro d h; exact absurd rfl h
  | cons x xs ih =>
    intro d _
    cases hxs : xs with
    | nil => simp [List.getLastD]
    | cons y ys =>
      rw [List.getLastD_cons]
      rw [hxs] at ih
      exact List.mem_cons_of_mem x (ih x (by simp))

end ParserLemmas

/-- C4: if the cleaned string contains a hyphen and at least two numeric
candidates were extracted, `parseSpeakers` returns the arithmetic mean of the
first and last candidate; and the three cited examples evaluate as
specified. -/
theorem parseSpeakers_range :
    (∀ str : String, '-' ∈ cleanedNum str → 2 ≤ (numCandidates str).length →
      parseSpeakers (some str) =
        some ((((numCandidates str).map tokenVal).headD 0 +
               ((numCandidates str).map tokenVal).getLastD 0) / 2)) ∧
    parseSpeakers (some "1000-2000") = some 1500 ∧
    parseSpeakers (some "<500") = some 500 ∧
    parseSpeakers (some "1,234") = some 1234 := by
  refine ⟨?_, ?_, by decide, by decide⟩
  swap
  · have h : (numTokens (cleanedNum "1000-2000")).map tokenVal =
        [(1000 : ℚ), 2000] := by decide
    have hc : (cleanedNum "1000-2000").contains '-' = true := by decide
    have ht : (trimChars "1000-2000".data).isEmpty = false := by decide
    simp only [parseSpeakers, ht, h, hc]
    norm_num
  · intro str hmem hlen
    have hb : (trimChars str.data).isEmpty = false := by
      rcases he : (trimChars str.data).isEmpty with _ | _
      · rfl
      · exfalso
        have h0 : cleanedNum str = [] := cleanedNum_of_blank he
        have : numCandidates str = [] := by
          unfold numCandidates numTokens
          rw [h0]
          rfl
        rw [this] at hlen
        simp at hlen
    have hcont : (cleanedNum str).contains '-' = true :=
      List.elem_iff.mpr hmem
    cases hts : (numTokens (cleanedNum str)).map tokenVal with
    | nil =>
      exfalso
      have : (numCandidates str).map tokenVal = [] := hts
      rw [← List.length_map (numCandidates str) tokenVal, this] at hlen
      simp at hlen
    | cons p ps =>
      have hlen2 : decide (2 ≤ (p :: ps).length) = true := by
        rw [← hts, List.length_map]
        simpa using hlen
      simp only [parseSpeakers, hb, Bool.false_eq_true, if_false, hts,
        hcont, hlen2, Bool.and_self, if_true]
      have hhead : ((numCandidates str).map tokenVal).headD 0 = p := by
        unfold numCandidates
        rw [hts]
        rfl
      have hlast : ((numCandidates str).map tokenVal).getLastD 0 =
          (p :: ps).getLastD 0 := by
        unfold numCandidates
        rw [hts]
      rw [hhead, hlast]

/-- C4, witness: the range rule applied at the concrete input
`"1000-2000"`. -/
theorem parseSpeakers_range_witness :
    ('-' ∈ cleanedNum "1000-2000" ∧ 2 ≤ (numCandidates "1000-2000").length) ∧
    parseSpeakers (some "1000-2000") =
      some ((((numCandidates "1000-2000").map tokenVal).headD 0 +
             ((numCandidates "1000-2000").map tokenVal).getLastD 0) / 2) :=
  ⟨⟨by decide, by decide⟩,
    parseSpeakers_range.1 "1000-2000" (by decide) (by decide)⟩

/-- C5: the numeric parser is total and signals absence with `null`: `null`
input, empty-after-trim input, and digit-free input all return `none`, as
does the cited example `"N/A"`. -/
theorem parseSpeakers_null :
    parseSpeakers none = none ∧
    (∀ str : String, (trimChars str.data).isEmpty = true →
      parseSpeakers (some str) = none) ∧
    (∀ str : String, (∀ c ∈ str.data, c.isDigit = false) →
      parseSpeakers (some str) = none) ∧
    parseSpeakers (some "N/A") = none := by
  refine ⟨rfl, ?_, ?_, by decide⟩
  · intro str h
    simp [parseSpeakers, h]
  · intro str h
    by_cases hb : (trimChars str.data).isEmpty
    · simp [parseSpeakers, hb]
    · have hnil : numTokens (cleanedNum str) = [] := by
        unfold numTokens
        exact numTokensF_nil_of_nodigit _ _
          (fun c hc => h c (mem_cleanedNum hc))
      simp [parseSpeakers, hb, hnil]

/-- C5, witness: the null rules applied at a whitespace-only and at a
digit-free concrete input. -/
theorem parseSpeakers_null_witness :
    ((trimChars " ".data).isEmpty = true ∧ parseSpeakers (some " ") = none) ∧
    ((∀ c ∈ "N/A".data, c.isDigit = false) ∧
      parseSpeakers (some "N/A") = none) :=
  ⟨⟨by decide, parseSpeakers_null.2.1 " " (by decide)⟩,
   ⟨by decide, parseSpeakers_null.2.2.1 "N/A" (by decide)⟩⟩

/-- C10: the numeric parser returns `none` or a non-negative value — the
candidate regex matches unsigned digit runs, so a leading minus sign is
ignored and `"-500"` parses to `500`. -/
theorem parseSpeakers_nonneg :
    (∀ raw : Option String,
      parseSpeakers raw = none ∨
        ∃ q : ℚ, parseSpeakers raw = some q ∧ 0 ≤ q) ∧
    parseSpeakers (some "-500") = some 500 := by
  refine ⟨?_, by decide⟩
  intro raw
  cases raw with
  | none => exact Or.inl rfl
  | some str =>
    by_cases hb : (trimChars str.data).isEmpty
    · exact Or.inl (by simp [parseSpeakers, hb])
    · have hb' : (trimChars str.data).isEmpty = false := by
        simpa using hb
      cases hts : (numTokens (cleanedNum str)).map tokenVal with
      | nil => exact Or.inl (by simp [parseSpeakers, hb', hts])
      | cons p ps =>
        have hall : ∀ x ∈ p :: ps, (0 : ℚ) ≤ x := by
          intro x hx
          rw [← hts] at hx
          obtain ⟨t, _, ht⟩ := List.mem_map.mp hx
          exact ht ▸ tokenVal_nonneg t
        have hp : (0 : ℚ) ≤ p := hall p (by simp)
        have hlast : (0 : ℚ) ≤ (p :: ps).getLastD 0 :=
          hall _ (getLastD_mem (p :: ps) 0 (by simp))
        refine Or.inr ?_
        simp only [parseSpeakers, hb', Bool.false_eq_true, if_false, hts]
        by_cases hcond : ((cleanedNum str).contains '-' &&
            decide (2 ≤ (p :: ps).length)) = true
        · rw [if_pos hcond]
          exact ⟨_, rfl, by positivity⟩
        · rw [if_neg hcond]
          by_cases hlt : (cleanedNum str).contains '<' = true
          · rw [if_pos hlt]
            exact ⟨p, rfl, hp⟩
          · rw [if_neg hlt]
            exact ⟨p, rfl, hp⟩

section QuartileLemmas

theorem insertAsc_of_le {x : ℚ} {l : List ℚ} (h : ∀ y ∈ l, x ≤ y) :
    insertAsc x l = x :: l := by
  cases l with
  | nil => rfl
  | cons y ys => simp [insertAsc, h y (by simp)]

theorem sortAsc_of_sorted {l : List ℚ} (h : l.Pairwise (· ≤ ·)) :
    sortAsc l = l := by
  induction l with
  | nil => rfl
  | cons x xs ih =>
    rcases List.pairwise_cons.mp h with ⟨hx, hxs⟩
    unfold sortAsc at *
    simp only [List.foldr_cons]
    rw [ih hxs]
    exact insertAsc_of_le hx

end QuartileLemmas

/-- C6: on a non-empty ascending-sorted input, `calculateQuartiles` returns
the elements at nearest-rank indices `floor(n/4)`, `floor(n/2)`,
`floor(3n/4)`, with `min` the first element, `max` the last, and
`iqr = q3 - q1`; the cited eight-element example evaluates as specified. -/
theorem calculateQuartiles_nearest_rank :
    (∀ l : List ℚ, l ≠ [] → l.Pairwise (· ≤ ·) →
      calculateQuartiles l = some ⟨l.getD 0 0, l.getD (l.length / 4) 0,
        l.getD (l.length / 2) 0, l.getD (3 * l.length / 4) 0,
        l.getD (l.length - 1) 0,
        l.getD (3 * l.length / 4) 0 - l.getD (l.length / 4) 0⟩) ∧
    calculateQuartiles [1, 2, 3, 4, 5, 6, 7, 8] = some ⟨1, 3, 5, 7, 8, 4⟩ := by
  have h1 : ∀ l : List ℚ, l ≠ [] → l.Pairwise (· ≤ ·) →
      calculateQuartiles l = some ⟨l.getD 0 0, l.getD (l.length / 4) 0,
        l.getD (l.length / 2) 0, l.getD (3 * l.length / 4) 0,
        l.getD (l.length - 1) 0,
        l.getD (3 * l.length / 4) 0 - l.getD (l.length / 4) 0⟩ := by
    intro l hne hs
    have hemp : l.isEmpty = false := by
      cases l with
      | nil => exact absurd rfl hne
      | cons x xs => rfl
    simp only [calculateQuartiles, sortAsc_of_sorted hs, hemp,
      Bool.false_eq_true, if_false]
  refine ⟨h1, ?_⟩
  rw [h1 [1, 2, 3, 4, 5, 6, 7, 8] (by simp) (by norm_num)]
  norm_num

/-- C6, witness: the nearest-rank rule applied at the concrete sorted input
`[1, 2]`. -/
theorem calculateQuartiles_nearest_rank_witness :
    (([1, 2] : List ℚ) ≠ [] ∧ ([1, 2] : List ℚ).Pairwise (· ≤ ·)) ∧
    calculateQuartiles [1, 2] = some ⟨1, 1, 2, 2, 2, 1⟩ := by
  refine ⟨⟨by simp, by norm_num⟩, ?_⟩
  rw [calculateQuartiles_nearest_rank.1 [1, 2] (by simp) (by norm_num)]
  norm_num

section RmsLemmas

theorem foldl_add_sq (l : List ℚ) :
    ∀ a : ℚ, l.foldl (fun s e => s + e * e) a =
      a + (l.map (fun e => e * e)).sum := by
  induction l with
  | nil => intro a; simp
  | cons x xs ih =>
    intro a
    simp only [List.foldl_cons, List.map_cons, List.sum_cons, ih]
    ring

theorem sumSquares_eq_sum (l : List ℚ) :
    sumSquares l = (l.map (fun e => e * e)).sum := by
  unfold sumSquares
  rw [foldl_add_sq]
  ring

end RmsLemmas

/-- C8: the RMS-error aggregation is the square root of the sum of squares of
the errors (per state, via `englishErrorSumSquaresByState`), `0` on an empty
sequence, and `5` on the cited `[3, 4]`. -/
theorem rmsError_sqrt_sum_squares :
    (∀ m : List (String × List ℚ),
      (englishErrorSumSquaresByState m).map
          (fun g => Real.sqrt (g.2 : ℝ)) =
        m.map (fun g =>
          Real.sqrt (((g.2.map (fun e => e * e)).sum : ℚ) : ℝ))) ∧
    Real.sqrt ((sumSquares [] : ℚ) : ℝ) = 0 ∧
    Real.sqrt ((sumSquares [3, 4] : ℚ) : ℝ) = 5 := by
  refine ⟨?_, ?_, ?_⟩
  · intro m
    unfold englishErrorSumSquaresByState
    rw [List.map_map]
    refine List.map_congr_left ?_
    intro g _
    simp [Function.comp, sumSquares_eq_sum]
  · have h : sumSquares ([] : List ℚ) = 0 := rfl
    rw [h]
    simp [Real.sqrt_zero]
  · have h : sumSquares [3, 4] = 25 := by
      unfold sumSquares
      norm_num
    rw [h]
    have h2 : (((25 : ℚ) : ℝ)) = (5 : ℝ) ^ 2 := by norm_num
    rw [h2, Real.sqrt_sq (by norm_num : (0 : ℝ) ≤ 5)]

section ShareLemmas

theorem insertDesc_perm (x : ShareItem) (l : List ShareItem) :
    (insertDesc x l).Perm (x :: l) := by
  induction l with
  | nil => rfl
  | cons y ys ih =>
    unfold insertDesc
    by_cases h : y.pct ≤ x.pct
    · rw [if_pos h]
    · rw [if_neg h]
      exact (ih.cons y).trans (List.Perm.swap x y ys)

theorem sortByPctDesc_perm (l : List ShareItem) :
    (sortByPctDesc l).Perm l := by
  induction l with
  | nil => rfl
  | cons x xs ih =>
    unfold sortByPctDesc at *
    simp only [List.foldr_cons]
    exact (insertDesc_perm x _).trans (ih.cons x)

theorem insertDesc_sorted {x : ShareItem} {l : List ShareItem}
    (h : l.Pairwise (fun a b => b.pct ≤ a.pct)) :
    (insertDesc x l).Pairwise (fun a b => b.pct ≤ a.pct) := by
  induction l with
  | nil => simp [insertDesc]
  | cons y ys ih =>
    rcases List.pairwise_cons.mp h with ⟨hy, hys⟩
    unfold insertDesc
    by_cases hc : y.pct ≤ x.pct
    · rw [if_pos hc]
      refine List.pairwise_cons.mpr ⟨?_, h⟩
      intro z hz
      rcases List.mem_cons.mp hz with h1 | h1
      · exact h1 ▸ hc
      · exact le_trans (hy z h1) hc
    · rw [if_neg hc]
      refine List.pairwise_cons.mpr ⟨?_, ih hys⟩
      intro z hz
      have hz' : z ∈ x :: ys := (insertDesc_perm x ys).mem_iff.mp hz
      rcases List.mem_cons.mp hz' with h1 | h1
      · exact h1 ▸ le_of_not_le hc
      · exact hy z h1

theorem sortByPctDesc_sorted (l : List ShareItem) :
    (sortByPctDesc l).Pairwise (fun a b => b.pct ≤ a.pct) := by
  induction l with
  | nil => simp [sortByPctDesc]
  | cons x xs ih =>
    unfold sortByPctDesc at *
    simp only [List.foldr_cons]
    exact insertDesc_sorted ih

theorem sum_pct_split (l : List ShareItem) (f : ShareItem → ℚ) :
    ((l.filter (fun d => (1 : ℚ) / 100 ≤ d.pct)).map f).sum +
      ((l.filter (fun d => ¬((1 : ℚ) / 100 ≤ d.pct))).map f).sum =
    (l.map f).sum := by
  induction l with
  | nil => simp
  | cons x xs ih =>
    by_cases h : (1 : ℚ) / 100 ≤ x.pct
    · simp only [List.filter_cons, h]
      simp
      simp at ih
      rw [← ih]
      ring
    · simp only [List.filter_cons, h]
      simp
      simp at ih
      rw [← ih]
      ring

theorem sum_map_div (l : List ShareItem) (D : ℚ) :
    (l.map (fun d => d.val / D)).sum = (l.map (fun d => d.val)).sum / D := by
  induction l with
  | nil => simp
  | cons x xs ih =>
    simp only [List.map_cons, List.sum_cons, ih]
    rw [div_add_div_same]

theorem pieItems_mem {totals : List (String × ℚ)} {D : ℚ} {it : ShareItem}
    (h : it ∈ pieItems totals D) :
    0 < it.val ∧ it.pct = if D = 0 then 0 else it.val / D := by
  unfold pieItems at h
  obtain ⟨p, hp, hpe⟩ := List.mem_map.mp h
  have hpos : 0 < p.2 := by
    have := List.of_mem_filter hp
    simpa using this
  constructor
  · rw [← hpe]
    exact hpos
  · rw [← hpe]

end ShareLemmas

/-- C7: when the denominator equals the sum of the included (positive) values
and no exclusion set is given, the output shares sum to exactly 1, the
non-`Other` entries are sorted descending by share, and the `Other (<1%)`
bucket (when present) is appended last. -/
theorem sharesWithOtherBucket_sum_one (totals : List (String × ℚ)) (D : ℚ)
    (hD : D = includedSum totals) (hpos : 0 < D) :
    ((sharesWithOtherBucket totals D).map (fun d => d.pct)).sum = 1 ∧
    (pieMajor totals D).Pairwise (fun a b => b.pct ≤ a.pct) ∧
    sharesWithOtherBucket totals D = pieMajor totals D ++ pieOther totals D ∧
    (∀ e ∈ pieOther totals D, e.lang = "Other (<1%)") := by
  have hD0 : D ≠ 0 := ne_of_gt hpos
  have hpct : ∀ d ∈ pieItems totals D, d.pct = d.val / D := by
    intro d hd
    rw [(pieItems_mem hd).2, if_neg hD0]
  have hval : ((pieItems totals D).map (fun d => d.val)).sum = D := by
    unfold pieItems
    rw [List.map_map]
    rw [hD]
    unfold includedSum
    rfl
  have hsum_items : ((pieItems totals D).map (fun d => d.pct)).sum = 1 := by
    have h1 : (pieItems totals D).map (fun d => d.pct) =
        (pieItems totals D).map (fun d => d.val / D) :=
      List.map_congr_left (fun d hd => hpct d hd)
    rw [h1, sum_map_div, hval, div_self hD0]
  have hminor_sub : ∀ d ∈ pieMinor totals D, d ∈ pieItems totals D := by
    intro d hd
    exact List.mem_of_mem_filter hd
  have hminor_pct : ((pieMinor totals D).map (fun d => d.pct)).sum =
      pieOtherVal totals D / D := by
    have h1 : (pieMinor totals D).map (fun d => d.pct) =
        (pieMinor totals D).map (fun d => d.val / D) :=
      List.map_congr_left (fun d hd => hpct d (hminor_sub d hd))
    rw [h1, sum_map_div]
    rfl
  have hmajor_pct : ((pieMajor totals D).map (fun d => d.pct)).sum =
      (((pieItems totals D).filter
          (fun d => (1 : ℚ) / 100 ≤ d.pct)).map (fun d => d.pct)).sum := by
    unfold pieMajor
    exact ((sortByPctDesc_perm _).map _).sum_eq
  have hother_sum : ((pieOther totals D).map (fun d => d.pct)).sum =
      pieOtherVal totals D / D := by
    unfold pieOther
    by_cases h : 0 < pieOtherVal totals D
    · rw [if_pos h]
      simp only [List.map_cons, List.map_nil, List.sum_cons, List.sum_nil,
        add_zero]
      unfold pieOtherPct
      rw [if_neg hD0]
    · rw [if_neg h]
      have hzero : pieOtherVal totals D = 0 := by
        have hnn : 0 ≤ pieOtherVal totals D := by
          unfold pieOtherVal
          refine List.sum_nonneg ?_
          intro x hx
          obtain ⟨d, hd, hde⟩ := List.mem_map.mp hx
          have := (pieItems_mem (hminor_sub d hd)).1
          rw [← hde]
          exact le_of_lt this
        exact le_antisymm (not_lt.mp h) hnn
      rw [hzero]
      simp
  refine ⟨?_, sortByPctDesc_sorted _, rfl, ?_⟩
  · unfold sharesWithOtherBucket
    rw [List.map_append, List.sum_append, hmajor_pct, hother_sum]
    have := sum_pct_split (pieItems totals D) (fun d => d.pct)
    have hminor_eq : ((pieItems totals D).filter
        (fun d => ¬((1 : ℚ) / 100 ≤ d.pct))).map (fun d => d.pct) =
        (pieMinor totals D).map (fun d => d.pct) := rfl
    rw [hminor_eq, hminor_pct] at this
    rw [this]
    exact hsum_items
  · intro e he
    unfold pieOther at he
    by_cases h : 0 < pieOtherVal totals D
    · rw [if_pos h] at he
      rcases List.mem_cons.mp he with h1 | h1
      · rw [h1]
      · simp at h1
    · rw [if_neg h] at he
      simp at he

/-- C7, witness: the sum-to-one property applied at a concrete totals map
whose denominator is the sum of its positive values. -/
theorem sharesWithOtherBucket_sum_one_witness :
    ((3 : ℚ) = includedSum [("English", 2), ("X", 1)] ∧ (0 : ℚ) < 3) ∧
    ((sharesWithOtherBucket [("English", 2), ("X", 1)] 3).map
        (fun d => d.pct)).sum = 1 := by
  have hD : (3 : ℚ) = includedSum [("English", 2), ("X", 1)] := by
    unfold includedSum
    norm_num
  exact ⟨⟨hD, by norm_num⟩,
    (sharesWithOtherBucket_sum_one _ 3 hD (by norm_num)).1⟩

section ProportionLemmas

theorem nodup_keys_aset {m : List (String × ℚ)} {k : String} (v : ℚ)
    (h : (m.map Prod.fst).Nodup) : ((aset m k v).map Prod.fst).Nodup := by
  rw [keys_aset]
  by_cases hk : k ∈ m.map Prod.fst
  · rw [if_pos hk]; exact h
  · rw [if_neg hk]
    refine List.Nodup.append h (List.nodup_singleton k) ?_
    intro a ha hb
    rw [List.mem_singleton] at hb
    subst hb
    exact hk ha

theorem englishCounts_fold_nodup (records : List LangRecord) :
    ∀ m : List (String × ℚ), (m.map Prod.fst).Nodup →
      ((records.foldl
          (fun m d =>
            match parseSpeakers d.english with
            | some c =>
              let k := canonicalStateName d.state
              aset m k ((aget m k).getD 0 + c)
            | none => m)
          m).map Prod.fst).Nodup := by
  induction records with
  | nil => intro m h; simpa using h
  | cons d ds ih =>
    intro m h
    simp only [List.foldl_cons]
    cases hp : parseSpeakers d.english with
    | none => exact ih m h
    | some c => exact ih _ (nodup_keys_aset _ h)

theorem englishCounts_keys_nodup (records : List LangRecord) :
    ((englishCounts records).map Prod.fst).Nodup :=
  englishCounts_fold_nodup records [] (by simp)

theorem foldl_aset_get (f : String → ℚ → ℚ) :
    ∀ (entries : List (String × ℚ)) (m : List (String × ℚ)) (k : String),
      (entries.map Prod.fst).Nodup →
      aget (entries.foldl (fun m g => aset m g.1 (f g.1 g.2)) m) k =
        (match aget entries k with
         | some v => some (f k v)
         | none => aget m k) := by
  intro entries
  induction entries with
  | nil => intro m k _; rfl
  | cons g es ih =>
    intro m k hnd
    obtain ⟨k₀, v₀⟩ := g
    simp only [List.map_cons, List.nodup_cons] at hnd
    obtain ⟨hk₀, hnd'⟩ := hnd
    simp only [List.foldl_cons]
    rw [ih _ k hnd']
    by_cases hk : k₀ = k
    · subst hk
      have hes : aget es k₀ = none := aget_eq_none_of_not_mem_keys hk₀
      rw [hes]
      simp only [aget, if_pos rfl]
      rw [aget_aset]
      simp
    · have hk2 : ¬(k = k₀) := fun hh => hk hh.symm
      simp only [aget, if_neg hk]
      cases he : aget es k with
      | some v => rfl
      | none =>
        rw [aget_aset, if_neg hk2]

end ProportionLemmas

/-- C9 (amended): each entry of `englishProficiencyProportions` equals
`(count / pop) * 100` where the denominator is the state's population when it
is known and nonzero, and `1` when it is unknown **or zero** (the
`get(state) || 1` guard); the denominator is never zero, so the division is
always defined.  The map's keys are canonical state names, so no null-state
(nationwide) branch arises. -/
theorem englishProficiencyProportions_amended (records : List LangRecord)
    (popMap : List (String × ℚ)) (st : String) :
    aget (englishProficiencyProportions records popMap) st =
      (aget (englishCounts records) st).map
        (fun c => (c / epDenom popMap st) * 100) ∧
    epDenom popMap st ≠ 0 := by
  constructor
  · unfold englishProficiencyProportions
    rw [foldl_aset_get (fun k v => (v / epDenom popMap k) * 100)
      (englishCounts records) [] st (englishCounts_keys_nodup records)]
    cases aget (englishCounts records) st with
    | some v => rfl
    | none => rfl
  · unfold epDenom
    cases aget popMap st with
    | none => simp
    | some p =>
      by_cases hp : p = 0
      · simp [hp]
      · simp [hp]

/-- C9, counterexample: for a state whose *recorded* population is `0`, the
code divides by `1` (the `|| 1` guard also triggers on a known zero), so the
computed proportion is `100 × count`, not the claimed
`100 × count / population-when-known`. -/
theorem englishProficiencyProportions_zero_pop :
    aget (englishProficiencyProportions
        [⟨some "California", none, none, some "500"⟩] [("California", 0)])
      "California" = some 50000 ∧
    claimedProportionSpec 500 (aget [("California", (0 : ℚ))] "California") ≠
      50000 := by
  have h1 : parseSpeakers (some "500") = some 500 := by decide
  have h2 : canonicalStateName (some "California") = "California" := by decide
  have hc : englishCounts [⟨some "California", none, none, some "500"⟩] =
      [("California", (0 : ℚ) + 500)] := by
    simp [englishCounts, h1, h2, aset, aget]
  have hc' : englishCounts [⟨some "California", none, none, some "500"⟩] =
      [("California", (500 : ℚ))] := by
    rw [hc]
    norm_num
  constructor
  · have hd : epDenom [("California", (0 : ℚ))] "California" = 1 := by
      simp [epDenom, aget]
    simp only [englishProficiencyProportions, hc', List.foldl_cons,
      List.foldl_nil, hd]
    have : ((500 : ℚ) / 1) * 100 = 50000 := by norm_num
    rw [this]
    simp [aset, aget]
  · simp only [claimedProportionSpec, aget]
    norm_num

section DedupLemmas

variable {α : Type} [DecidableEq α]

theorem mem_dedupAux :
    ∀ (l seen : List α) (x : α), x ∈ dedupAux seen l ↔ x ∈ l ∧ x ∉ seen := by
  intro l
  induction l with
  | nil => intro seen x; simp [dedupAux]
  | cons y ys ih =>
    intro seen x
    unfold dedupAux
    by_cases hy : y ∈ seen
    · rw [if_pos hy, ih]
      constructor
      · rintro ⟨h1, h2⟩
        exact ⟨List.mem_cons_of_mem y h1, h2⟩
      · rintro ⟨h1, h2⟩
        rcases List.mem_cons.mp h1 with h3 | h3
        · exact absurd (h3 ▸ hy) h2
        · exact ⟨h3, h2⟩
    · rw [if_neg hy]
      by_cases hx : x = y
      · subst hx
        simp [hy]
      · simp only [List.mem_cons, hx, false_or, ih]

theorem dedupAux_nodup : ∀ (l seen : List α), (dedupAux seen l).Nodup := by
  intro l
  induction l with
  | nil => intro seen; simp [dedupAux]
  | cons y ys ih =>
    intro seen
    unfold dedupAux
    by_cases hy : y ∈ seen
    · rw [if_pos hy]; exact ih seen
    · rw [if_neg hy]
      refine List.nodup_cons.mpr ⟨?_, ih (y :: seen)⟩
      intro hc
      exact ((mem_dedupAux ys (y :: seen) y).mp hc).2 (List.mem_cons_self y seen)

theorem dedupFirst_nodup (l : List α) : (dedupFirst l).Nodup :=
  dedupAux_nodup l []

theorem mem_dedupFirst (l : List α) (x : α) : x ∈ dedupFirst l ↔ x ∈ l := by
  unfold dedupFirst
  rw [mem_dedupAux]
  simp

theorem dedupAux_concat :
    ∀ (xs : List α) (seen : List α) (x : α),
      dedupAux seen (xs ++ [x]) =
        dedupAux seen xs ++ (if x ∈ seen ∨ x ∈ xs then [] else [x]) := by
  intro xs
  induction xs with
  | nil =>
    intro seen x
    simp only [List.nil_append, dedupAux]
    by_cases hx : x ∈ seen
    · simp [hx, dedupAux]
    · simp [hx, dedupAux]
  | cons y ys ih =>
    intro seen x
    simp only [List.cons_append]
    unfold dedupAux
    by_cases hy : y ∈ seen
    · rw [if_pos hy, if_pos hy, ih]
      by_cases hx : x ∈ seen ∨ x ∈ ys
      · rw [if_pos hx, if_pos ?_]
        rcases hx with h | h
        · exact Or.inl h
        · exact Or.inr (List.mem_cons_of_mem y h)
      · rw [if_neg hx, if_neg ?_]
        rintro (h | h)
        · exact hx (Or.inl h)
        · rcases List.mem_cons.mp h with h1 | h1
          · exact hx (Or.inl (h1 ▸ hy))
          · exact hx (Or.inr h1)
    · rw [if_neg hy, if_neg hy, ih, List.cons_append]
      by_cases hx : x ∈ y :: seen ∨ x ∈ ys
      · rw [if_pos hx, if_pos ?_]
        rcases hx with h | h
        · rcases List.mem_cons.mp h with h1 | h1
          · exact Or.inr (h1 ▸ List.mem_cons_self y ys)
          · exact Or.inl h1
        · exact Or.inr (List.mem_cons_of_mem y h)
      · rw [if_neg hx, if_neg ?_]
        rintro (h | h)
        · exact hx (Or.inl (List.mem_cons_of_mem y h))
        · rcases List.mem_cons.mp h with h1 | h1
          · exact hx (Or.inl (h1 ▸ List.mem_cons_self y seen))
          · exact hx (Or.inr h1)

theorem dedupFirst_concat (xs : List α) (x : α) :
    dedupFirst (xs ++ [x]) =
      dedupFirst xs ++ (if x ∈ xs then [] else [x]) := by
  unfold dedupFirst
  rw [dedupAux_concat]
  simp

end DedupLemmas

section GroupLemmas

variable {κ β : Type} [DecidableEq κ]

theorem aget_map_keys (keys : List κ) (g : κ → β) (k : κ) :
    aget (keys.map (fun j => (j, g j))) k =
      if k ∈ keys then some (g k) else none := by
  induction keys with
  | nil => simp [aget]
  | cons j js ih =>
    by_cases hj : j = k
    · subst hj
      simp [aget]
    · have hj2 : ¬(k = j) := fun hh => hj hh.symm
      simp only [List.map_cons, aget, if_neg hj, ih, List.mem_cons]
      by_cases hk : k ∈ js <;> simp [hk, hj2]

theorem aset_map_keys (keys : List κ) (g : κ → β) (k : κ) (v : β)
    (hnd : keys.Nodup) (hmem : k ∈ keys) :
    aset (keys.map (fun j => (j, g j))) k v =
      keys.map (fun j => (j, if j = k then v else g j)) := by
  induction keys with
  | nil => simp at hmem
  | cons j js ih =>
    rcases List.nodup_cons.mp hnd with ⟨hj_nin, hnd'⟩
    by_cases hj : j = k
    · subst hj
      simp only [List.map_cons, aset, if_pos rfl, eq_self_iff_true, if_true]
      congr 1
      refine (List.map_congr_left ?_).symm
      intro a ha
      have : ¬(a = j) := fun hh => hj_nin (hh ▸ ha)
      simp [this]
    · have hmem' : k ∈ js := by
        rcases List.mem_cons.mp hmem with h1 | h1
        · exact absurd h1.symm hj
        · exact h1
      simp only [List.map_cons, aset, if_neg hj, ih hnd' hmem']

theorem keys_of_map_keys {γ δ : Type} (keys : List γ) (g : γ → δ) :
    (keys.map (fun j => (j, g j))).map Prod.fst = keys := by
  induction keys with
  | nil => rfl
  | cons j js ih => simp [ih]

end GroupLemmas

theorem languageByState_eq (records : List LangRecord) :
    languageByState records =
      (dedupFirst (records.map (fun r => canonicalStateName r.state))).map
        (fun k =>
          (k, records.filter (fun r => canonicalStateName r.state = k))) := by
  induction records using List.reverseRecOn with
  | nil => rfl
  | append_singleton rs d ih =>
    have hstep : languageByState (rs ++ [d]) =
        aset (languageByState rs) (canonicalStateName d.state)
          ((aget (languageByState rs)
              (canonicalStateName d.state)).getD [] ++ [d]) := by
      unfold languageByState
      rw [List.foldl_append]
      rfl
    rw [hstep, ih]
    simp only [List.map_append, List.map_cons, List.map_nil]
    rw [dedupFirst_concat]
    by_cases hkd : canonicalStateName d.state ∈
        rs.map (fun r => canonicalStateName r.state)
    · rw [if_pos hkd]
      rw [List.append_nil]
      have hmem : canonicalStateName d.state ∈
          dedupFirst (rs.map (fun r => canonicalStateName r.state)) :=
        (mem_dedupFirst _ _).mpr hkd
      have hget := aget_map_keys
        (dedupFirst (rs.map (fun r => canonicalStateName r.state)))
        (fun k => rs.filter (fun r => canonicalStateName r.state = k))
        (canonicalStateName d.state)
      rw [if_pos hmem] at hget
      simp only [hget, Option.getD_some]
      rw [aset_map_keys _ _ _ _ (dedupFirst_nodup _) hmem]
      refine List.map_congr_left ?_
      intro k hk
      by_cases hkk : k = canonicalStateName d.state
      · subst hkk
        simp [List.filter_append, List.filter_cons]
      · have hkk2 : ¬(canonicalStateName d.state = k) :=
          fun hh => hkk hh.symm
        simp [List.filter_append, List.filter_cons, hkk, hkk2]
    · rw [if_neg hkd]
      have hnmem : canonicalStateName d.state ∉
          dedupFirst (rs.map (fun r => canonicalStateName r.state)) :=
        fun hc => hkd ((mem_dedupFirst _ _).mp hc)
      have hget := aget_map_keys
        (dedupFirst (rs.map (fun r => canonicalStateName r.state)))
        (fun k => rs.filter (fun r => canonicalStateName r.state = k))
        (canonicalStateName d.state)
      rw [if_neg hnmem] at hget
      simp only [hget, Option.getD_none, List.nil_append]
      rw [aset_of_not_mem_keys _ (by rw [keys_of_map_keys]; exact hnmem)]
      rw [List.map_append]
      congr 1
      · refine List.map_congr_left ?_
        intro k hk
        have hkk : ¬(canonicalStateName d.state = k) := by
          intro hh
          exact hnmem (hh ▸ hk)
        simp [List.filter_append, List.filter_cons, hkk]
      · simp only [List.map_cons, List.map_nil]
        have hfilt : rs.filter
            (fun r => canonicalStateName r.state =
              canonicalStateName d.state) = [] := by
          rw [List.filter_eq_nil_iff]
          intro r hr
          simp only [decide_eq_true_eq]
          intro hc
          exact hkd (List.mem_map.mpr ⟨r, hr, hc⟩)
        simp [List.filter_append, List.filter_cons, hfilt]

section CountLemmas

theorem bumps_get (ls : List (Option String)) :
    ∀ (m : List (Option String × Nat)) (l : Option String),
      (aget (ls.foldl bump m) l).getD 0 =
        (aget m l).getD 0 + ls.countP (fun x => decide (x = l)) := by
  induction ls with
  | nil => intro m l; simp
  | cons x xs ih =>
    intro m l
    simp only [List.foldl_cons, ih, List.countP_cons]
    unfold bump
    rw [aget_aset]
    by_cases hl : l = x
    · subst hl
      simp [Nat.add_assoc, Nat.add_comm 1]
    · have hl2 : ¬(x = l) := fun hh => hl hh.symm
      simp [hl, hl2]

theorem countP_nodup_mem {α : Type} [DecidableEq α] {l : List α} (a : α)
    (h : l.Nodup) :
    l.countP (fun x => decide (x = a)) = if a ∈ l then 1 else 0 := by
  induction l with
  | nil => simp
  | cons x xs ih =>
    rcases List.nodup_cons.mp h with ⟨hx, hnd⟩
    rw [List.countP_cons]
    by_cases ha : x = a
    · subst ha
      have h0 : xs.countP (fun x' => decide (x' = x)) = 0 := by
        rw [List.countP_eq_length_filter]
        rw [List.filter_eq_nil_iff.mpr ?_]
        · rfl
        · intro b hb
          simp only [decide_eq_true_eq]
          intro hc
          exact hx (hc ▸ hb)
      simp [h0]
    · have ha2 : ¬(a = x) := fun hh => ha hh.symm
      simp [ha, ha2, ih hnd]

theorem countsFold_get (groups : List (String × List LangRecord)) :
    ∀ (cnt : List (Option String × Nat)) (l : Option String),
      (aget (groups.foldl
          (fun cnt g =>
            (dedupFirst (g.2.map (fun d => d.language))).foldl bump cnt)
          cnt) l).getD 0 =
        (aget cnt l).getD 0 +
          groups.countP
            (fun g => decide (l ∈ dedupFirst (g.2.map (fun d => d.language)))) := by
  induction groups with
  | nil => intro cnt l; simp
  | cons g gs ih =>
    intro cnt l
    simp only [List.foldl_cons, ih, List.countP_cons, bumps_get]
    rw [countP_nodup_mem l (dedupFirst_nodup _)]
    by_cases hmem : l ∈ dedupFirst (g.2.map (fun d => d.language))
    · simp [hmem, Nat.add_assoc, Nat.add_comm 1]
    · simp [hmem]

theorem statesCount_get (records : List LangRecord) (l : Option String) :
    (aget (statesCount records) l).getD 0 =
      (languageByState records).countP
        (fun g => decide (l ∈ dedupFirst (g.2.map (fun d => d.language)))) := by
  unfold statesCount
  rw [countsFold_get]
  simp [aget]

end CountLemmas

/-- C2, counterexample: a language whose only record in a state has a null
parsed speaker count is still counted by the dot chart's `statesCount`, while
the claimed coverage (states with at least one record with speakers > 0)
would be `0`. -/
theorem statesCount_counts_null_speakers :
    (aget (statesCount [⟨some "CA", some "X", none, none⟩])
        (some "X")).getD 0 = 1 ∧
    languageCoverageSpec [⟨some "CA", some "X", none, none⟩] (some "X") = 0 := by
  constructor <;> decide

/-- C2 (amended): for every language, the dot chart's `statesCount` equals
the number of distinct canonical states in which at least one record for that
language *appears* — regardless of its parsed speaker count (there is no
`speakers > 0` filter in the code). -/
theorem statesCount_amended (records : List LangRecord) (l : Option String) :
    (aget (statesCount records) l).getD 0 =
      (dedupFirst ((records.filter (fun r => r.language = l)).map
        (fun r => canonicalStateName r.state))).length := by
  rw [statesCount_get, languageByState_eq, List.countP_map]
  have hcongr : (dedupFirst (records.map
      (fun r => canonicalStateName r.state))).countP
        ((fun g => decide (l ∈ dedupFirst
          (g.2.map (fun d => d.language)))) ∘
         (fun k =>
           (k, records.filter (fun r => canonicalStateName r.state = k)))) =
      (dedupFirst (records.map (fun r => canonicalStateName r.state))).countP
        (fun k => decide (∃ r ∈ records,
          canonicalStateName r.state = k ∧ r.language = l)) := by
    refine List.countP_congr ?_
    intro k _
    simp only [Function.comp, decide_eq_true_eq]
    rw [mem_dedupFirst]
    constructor
    · intro h
      obtain ⟨r, hr, hrl⟩ := List.mem_map.mp h
      have hr' := List.mem_filter.mp hr
      refine ⟨r, hr'.1, ?_, hrl⟩
      simpa using hr'.2
    · rintro ⟨r, hr, hrk, hrl⟩
      refine List.mem_map.mpr ⟨r, ?_, hrl⟩
      refine List.mem_filter.mpr ⟨hr, ?_⟩
      simpa using hrk
  rw [hcongr]
  rw [List.countP_eq_length_filter]
  have hnd1 : ((dedupFirst (records.map
      (fun r => canonicalStateName r.state))).filter
        (fun k => decide (∃ r ∈ records,
          canonicalStateName r.state = k ∧ r.language = l))).Nodup :=
    (dedupFirst_nodup _).filter _
  have hnd2 : (dedupFirst ((records.filter (fun r => r.language = l)).map
      (fun r => canonicalStateName r.state))).Nodup := dedupFirst_nodup _
  rw [← List.toFinset_card_of_nodup hnd1, ← List.toFinset_card_of_nodup hnd2]
  congr 1
  ext x
  simp only [List.mem_toFinset, List.mem_filter, mem_dedupFirst,
    decide_eq_true_eq, List.mem_map]
  tauto

example : canonicalStateName (some "CA") = "California" := by decide
example : canonicalStateName (some "ca") = "California" := by decide
example : canonicalStateName (some "California (state)") = "California" := by
  decide
example : canonicalStateName (some "") = "Unknown" := by decide
example : canonicalStateName (some ".") = "" := by decide
example : canonicalStateName (some "state") = "" := by decide
example : canonicalStateName (some "atlantis") = "Atlantis" := by decide
example : parseSpeakers (some "1,234") = some 1234 := by decide
example : parseSpeakers (some "1000-2000") = some 1500 := by
  have h : (numTokens (cleanedNum "1000-2000")).map tokenVal =
      [(1000 : ℚ), 2000] := by decide
  have hc : (cleanedNum "1000-2000").contains '-' = true := by decide
  have ht : (trimChars "1000-2000".data).isEmpty = false := by decide
  simp only [parseSpeakers, ht, h, hc]
  norm_num
example : parseSpeakers (some "<500") = some 500 := by decide
example : parseSpeakers (some "N/A") = none := by decide
example : parseSpeakers none = none := by decide
example : parseSpeakers (some "-500") = some 500 := by decide
